import Mathlib

/-!
Shallow embedding of the repository's two notebook pipelines:
(A) multilingual sentence-encoder question/answer retrieval over SQuAD, and
(B) video action recognition with an inflated 3D CNN.

External pretrained models and libraries (the encoder, the nearest-neighbor
index internals, nltk's sentence tokenizer, cv2's resize, the network) are
modelled as opaque function parameters; everything else is translated from
the notebook code.
-/

namespace Spec2Proof

/-! ## Pipeline A: SQuAD data model

The SQuAD JSON schema used by the notebook:
`data[].paragraphs[].{context, qas[].{question, answers[].text}}`.
-/

structure Answer where
  text : String
deriving DecidableEq, Repr

structure QAItem where
  question : String
  answers : List Answer
deriving DecidableEq, Repr

structure Paragraph where
  context : String
  qas : List QAItem
deriving DecidableEq, Repr

structure SquadArticle where
  paragraphs : List Paragraph
deriving DecidableEq, Repr

structure Squad where
  data : List SquadArticle
deriving DecidableEq, Repr

/-- `extract_sentences_from_squad_json`: for every article and paragraph,
tokenize the paragraph context into sentences (via the external
`sent_tokenize`, an opaque parameter) and pair each sentence with the whole
paragraph context; finally `list(set(...))`, i.e. duplicate removal with
unspecified order, modelled by `List.dedup` (first-occurrence order: one
faithful representative, since every property we prove about the result is
order-independent). -/
def extract_sentences_from_squad_json (sent_tokenize : String → List String)
    (squad : Squad) : List (String × String) :=
  (squad.data.flatMap fun d =>
    d.paragraphs.flatMap fun paragraph =>
      (sent_tokenize paragraph.context).map fun s => (s, paragraph.context)).dedup

/-- `extract_questions_from_squad_json`: collect `(question, answers[0].text)`
for every qas entry whose `answers` list is non-empty, then `list(set(...))`
modelled by `List.dedup`. -/
def extract_questions_from_squad_json (squad : Squad) : List (String × String) :=
  (squad.data.flatMap fun d =>
    d.paragraphs.flatMap fun paragraph =>
      paragraph.qas.filterMap fun qas =>
        match qas.answers with
        | [] => none
        | a :: _ => some (qas.question, a.text)).dedup

/-! ## Pipeline A: indexing stage (batching)

The notebook iterates `slices = zip(*(iter(sentences),) * batch_size)`,
which yields consecutive whole tuples of size `batch_size` and stops as soon
as fewer than `batch_size` elements remain, silently discarding the
remainder. `chunkExact` is that grouping loop.
-/

def batch_size : Nat := 100

/-- Whole consecutive chunks of size `k`; a trailing group of fewer than `k`
elements is dropped (`zip(*(iter(xs),) * k)`). -/
def chunkExact (k : Nat) (xs : List α) : List (List α) :=
  if _h : 0 < k ∧ k ≤ xs.length then
    xs.take k :: chunkExact k (xs.drop k)
  else []
termination_by xs.length
decreasing_by simp only [List.length_drop]; omega

/-- The batches driven by the indexing loop. -/
def slices (sentences : List (String × String)) : List (List (String × String)) :=
  chunkExact batch_size sentences

/-- `num_batches = int(len(sentences) / batch_size)`. -/
def num_batches (sentences : List (String × String)) : Nat :=
  sentences.length / batch_size

/-- The (sentence, context) pairs that the indexing loop actually encodes and
inserts (`index.add_one` per element of each whole batch), in order. -/
def indexedPairs (sentences : List (String × String)) : List (String × String) :=
  (slices sentences).flatten

/-! ## Pipeline A: highlighting

`output_with_highlight(text, highlight)` repeatedly searches `text` for
`highlight` with Python's `str.find` (first index, or `-1` when absent) and
rebuilds the string, wrapping each found occurrence in `'<b>' ... '<b>'`
(note: the notebook writes `'<b>'` on BOTH sides, not `'</b>'`). The `while
True` loop is embedded with explicit fuel, so that its (non-)termination is
itself a provable statement: `none` means the fuel ran out. Strings are
modelled as `List Char`.
-/

/-- Python `text.find(pat)`: the least index where `pat` starts in `text`,
`none` for `-1`. Like Python, the empty pattern is found at index 0. -/
def findIdx2 (text pat : List Char) : Option Nat :=
  if pat.isPrefixOf text then some 0
  else
    match text with
    | [] => none
    | _ :: t => (findIdx2 t pat).map (· + 1)

/-- The body of the `while True` loop of `output_with_highlight`, with fuel. -/
def owhLoop (fuel : Nat) (output text h : List Char) : Option (List Char) :=
  match fuel with
  | 0 => none
  | fuel + 1 =>
    match findIdx2 text h with
    | none => some (output ++ text)
    | some i =>
        owhLoop fuel
          (output ++ text.take i ++ "<b>".toList ++ (text.drop i).take h.length
            ++ "<b>".toList)
          (text.drop (i + h.length)) h

/-- `output_with_highlight`: starts from `'<li> '`, runs the loop, appends
`'</li>\n'`. The fuel `text.length + 1` is sufficient whenever the highlight
is non-empty (each matching iteration removes at least one character); with
an empty highlight the Python loop diverges and this returns `none`. -/
def output_with_highlight (text h : List Char) : Option (List Char) :=
  (owhLoop (text.length + 1) "<li> ".toList text h).map (· ++ "</li>\n".toList)

/-! ## Pipeline B: video frames

A decoded frame is a `height × width` grid of pixels; a pixel is its three
8-bit channel values (cv2 decodes in BGR order), modelled as a `Nat` triple.
-/

abbrev Pixel8 : Type := Nat × Nat × Nat

abbrev Frame8 : Type := List (List Pixel8)

/-- `crop_center_square(frame)`: with `y, x = frame.shape[0:2]` and
`min_dim = min(y, x)`, returns
`frame[start_y : start_y+min_dim, start_x : start_x+min_dim]` where
`start_y = y//2 - min_dim//2` and `start_x = x//2 - min_dim//2`.
Numpy slicing on rows and columns is `drop`/`take`. -/
def crop_center_square (frame : List (List α)) : List (List α) :=
  let y := frame.length
  let x := (frame.headD []).length
  let min_dim := min y x
  let start_x := x / 2 - min_dim / 2
  let start_y := y / 2 - min_dim / 2
  ((frame.drop start_y).take min_dim).map fun row => (row.drop start_x).take min_dim

/-- `frame[:, :, [2, 1, 0]]`: channel reordering BGR → RGB per pixel. -/
def reorderChannels (p : Pixel8) : Pixel8 :=
  (p.2.2, p.2.1, p.1)

/-- One iteration of the frame loop of `load_video`: center-crop, resize
(external `cv2.resize`, an opaque parameter that keeps frames 8-bit), reorder
the channels. -/
def processFrame (resize : Frame8 → Frame8) (frame : Frame8) : Frame8 :=
  (resize (crop_center_square frame)).map fun row => row.map reorderChannels

/-- The final `np.array(frames) / 255.0` applied to one pixel, over `ℚ`. -/
def normPixel (p : Pixel8) : ℚ × ℚ × ℚ :=
  ((p.1 : ℚ) / 255, (p.2.1 : ℚ) / 255, (p.2.2 : ℚ) / 255)

/-- All channel values of a frame are 8-bit (≤ 255; `Nat` gives ≥ 0). -/
def pix8 (f : Frame8) : Prop :=
  ∀ row ∈ f, ∀ p ∈ row, p.1 ≤ 255 ∧ p.2.1 ≤ 255 ∧ p.2.2 ≤ 255

/-- `load_video(path, max_frames, resize)`: reads frames until the decoder is
exhausted or `len(frames) == max_frames` (the check sits after the append, so
`max_frames = 0` means no limit), processing each frame, then divides the
whole stack by 255.0. The decoder output is the `decoded` list. -/
def load_video (resize : Frame8 → Frame8) (max_frames : Nat)
    (decoded : List Frame8) : List (List (List (ℚ × ℚ × ℚ))) :=
  let kept := if max_frames = 0 then decoded else decoded.take max_frames
  (kept.map (processFrame resize)).map fun fr => fr.map fun row => row.map normPixel

/-! ## Pipeline B: top-5 prediction

`predict` applies `tf.nn.softmax` to the logits and then selects
`np.argsort(probabilities)[::-1][:5]`, printing `labels[i]` with
`probabilities[i] * 100`. `np.argsort` sorts the indices ascending by value;
any sort does, and ties are broken arbitrarily, so it is modelled with
insertion sort over the index list. The reals and `Real.exp` force these
definitions to be noncomputable, matching the numeric nature of the source.
-/

noncomputable def softmax (logits : List ℝ) : List ℝ :=
  (logits.map Real.exp).map fun e => e / (logits.map Real.exp).sum

/-- `np.argsort(v)`: the indices `0 .. v.length - 1` sorted so that the
values `v[i]` are ascending. -/
noncomputable def argsortAsc (v : List ℝ) : List Nat :=
  List.insertionSort (fun i j => v.getD i 0 ≤ v.getD j 0) (List.range v.length)

/-- The five indices reported by `predict`: `np.argsort(probs)[::-1][:5]`. -/
noncomputable def top5Indices (probs : List ℝ) : List Nat :=
  ((argsortAsc probs).reverse).take 5

/-- `predict(sample_video)` as a function of the classifier logits: the
reported (label, percentage) lines, top to bottom. -/
noncomputable def predict (labels : List String) (logits : List ℝ) :
    List (String × ℝ) :=
  let probabilities := softmax logits
  (top5Indices probabilities).map fun i =>
    (labels.getD i "", probabilities.getD i 0 * 100)

/-! ## Pipeline B: video fetching and caching

`fetch_ucf_video(video)` consults the cache directory (a name ↦ contents
association list), downloads only on a miss, and always returns
`os.path.join(_CACHE_DIR, video)`. The network is the opaque `download`
parameter; `downloaded` records whether it was called. -/

def UCF_ROOT : String := "http://crcv.ucf.edu/THUMOS14/UCF101/UCF101/"

structure FetchResult where
  fs : List (String × String)
  path : String
  downloaded : Bool
deriving DecidableEq, Repr

def fetch_ucf_video (download : String → String) (cacheDir : String)
    (fs : List (String × String)) (video : String) : FetchResult :=
  let cache_path := cacheDir ++ "/" ++ video
  match fs.lookup cache_path with
  | some _ => ⟨fs, cache_path, false⟩
  | none =>
      let urlpath := UCF_ROOT ++ video
      ⟨(cache_path, download urlpath) :: fs, cache_path, true⟩

/-! ## Lemmas about the batch-grouping loop -/

theorem chunkExact_flatten (k : Nat) (hk : 0 < k) (xs : List α) :
    (chunkExact k xs).flatten = xs.take (k * (xs.length / k)) := by
  rw [chunkExact]
  by_cases h : k ≤ xs.length
  · rw [dif_pos ⟨hk, h⟩]
    have ih := chunkExact_flatten k hk (xs.drop k)
    rw [List.flatten_cons, ih, List.length_drop]
    have hdiv : xs.length / k = (xs.length - k) / k + 1 :=
      Nat.div_eq_sub_div hk h
    have harith : k * (xs.length / k) = k + k * ((xs.length - k) / k) := by
      rw [hdiv]; ring
    rw [harith, List.take_add]
  · rw [dif_neg (by omega)]
    have : xs.length / k = 0 := Nat.div_eq_of_lt (by omega)
    simp [this]
termination_by xs.length
decreasing_by simp only [List.length_drop]; omega

theorem chunkExact_batch_length (k : Nat) (xs : List α) :
    ∀ b ∈ chunkExact k xs, b.length = k := by
  intro b hb
  rw [chunkExact] at hb
  by_cases h : 0 < k ∧ k ≤ xs.length
  · rw [dif_pos h] at hb
    rcases List.mem_cons.mp hb with hb | hb
    · subst hb
      simpa using h.2
    · exact chunkExact_batch_length k (xs.drop k) b hb
  · rw [dif_neg h] at hb
    cases hb
termination_by xs.length
decreasing_by simp only [List.length_drop]; omega

theorem chunkExact_length (k : Nat) (hk : 0 < k) (xs : List α) :
    (chunkExact k xs).length = xs.length / k := by
  rw [chunkExact]
  by_cases h : k ≤ xs.length
  · rw [dif_pos ⟨hk, h⟩]
    have ih := chunkExact_length k hk (xs.drop k)
    rw [List.length_cons, ih, List.length_drop, Nat.div_eq_sub_div hk h]
  · rw [dif_neg (by omega)]
    have : xs.length / k = 0 := Nat.div_eq_of_lt (by omega)
    simp [this]
termination_by xs.length
decreasing_by simp only [List.length_drop]; omega

/-! ## Lemmas about the highlighting loop -/

theorem length_le_of_isPrefixOf :
    ∀ (pat text : List Char), pat.isPrefixOf text = true →
      pat.length ≤ text.length := by
  intro pat
  induction pat with
  | nil => intro text _; simp
  | cons a as ih =>
      intro text hp
      cases text with
      | nil => simp [List.isPrefixOf] at hp
      | cons b bs =>
          simp only [List.isPrefixOf, Bool.and_eq_true] at hp
          have := ih bs hp.2
          simp only [List.length_cons]
          omega

theorem findIdx2_bound :
    ∀ (text pat : List Char) (i : Nat), findIdx2 text pat = some i →
      i + pat.length ≤ text.length := by
  intro text
  induction text with
  | nil =>
      intro pat i h
      rw [findIdx2] at h
      split at h
      · next hp =>
          have hl := length_le_of_isPrefixOf pat [] hp
          simp only [Option.some.injEq] at h
          simp only [List.length_nil] at hl ⊢
          omega
      · cases h
  | cons c t ih =>
      intro pat i h
      rw [findIdx2] at h
      split at h
      · next hp =>
          have hl := length_le_of_isPrefixOf pat (c :: t) hp
          simp only [Option.some.injEq] at h
          omega
      · rw [Option.map_eq_some'] at h
        rcases h with ⟨j, hj, hji⟩
        have := ih pat j hj
        simp only [List.length_cons]
        omega

theorem findIdx2_nil_pat (text : List Char) : findIdx2 text [] = some 0 := by
  cases text <;> simp [findIdx2, List.isPrefixOf]

theorem owhLoop_isSome (h : List Char) (hne : h ≠ []) :
    ∀ (fuel : Nat) (output text : List Char), text.length < fuel →
      (owhLoop fuel output text h).isSome = true := by
  intro fuel
  induction fuel with
  | zero => intro output text hlt; omega
  | succ n ih =>
      intro output text hlt
      rw [owhLoop]
      cases hfind : findIdx2 text h with
      | none => simp
      | some i =>
          simp only [hfind]
          apply ih
          have hb := findIdx2_bound text h i hfind
          have hlen : 0 < h.length := List.length_pos.mpr hne
          simp only [List.length_drop]
          omega

theorem owhLoop_empty (fuel : Nat) :
    ∀ output text : List Char, owhLoop fuel output text [] = none := by
  induction fuel with
  | zero => intro output text; rfl
  | succ n ih =>
      intro output text
      rw [owhLoop, findIdx2_nil_pat]
      exact ih _ _

theorem findIdx2_eq_none (h : List Char) (hne : h ≠ []) :
    ∀ text : List Char,
      (∀ i < text.length, h.isPrefixOf (text.drop i) = false) →
      findIdx2 text h = none := by
  intro text
  induction text with
  | nil =>
      intro _
      rw [findIdx2]
      have h0 : h.isPrefixOf ([] : List Char) = false := by
        cases h with
        | nil => exact absurd rfl hne
        | cons a as => simp [List.isPrefixOf]
      rw [if_neg (by simp [h0])]
  | cons c t ih =>
      intro habs
      rw [findIdx2]
      have h0 : h.isPrefixOf (c :: t) = false := by
        have := habs 0 (by simp)
        simpa using this
      rw [if_neg (by simp [h0])]
      have ht : findIdx2 t h = none := by
        apply ih
        intro i hi
        have := habs (i + 1) (by simp only [List.length_cons]; omega)
        simpa using this
      rw [ht]
      rfl

/-- C1: the indexing stage encodes and inserts exactly the first
`(n / 100) * 100` extracted (sentence, context) pairs, in whole batches of
100 (every batch the loop yields has length exactly `batch_size = 100`, the
loop runs `n / 100` times), and the trailing `n % 100` pairs are never
encoded or inserted: the inserted pairs are precisely
`sentences.take (100 * (n / 100))`. -/
theorem indexing_batches_drop_remainder (sentences : List (String × String)) :
    (∀ b ∈ slices sentences, b.length = 100) ∧
    (slices sentences).length = num_batches sentences ∧
    indexedPairs sentences =
      sentences.take (100 * (sentences.length / 100)) := by
  refine ⟨?_, ?_, ?_⟩
  · exact chunkExact_batch_length batch_size sentences
  · exact chunkExact_length batch_size (by decide) sentences
  · exact chunkExact_flatten batch_size (by decide) sentences

/-- C4: both extraction outputs are duplicate-free: every (sentence, context)
pair and every (question, answer) pair occurs at most once. -/
theorem extraction_outputs_nodup (sent_tokenize : String → List String)
    (squad : Squad) :
    (extract_sentences_from_squad_json sent_tokenize squad).Nodup ∧
    (extract_questions_from_squad_json squad).Nodup :=
  ⟨List.nodup_dedup _, List.nodup_dedup _⟩

/-- C5: `(q, a)` is extracted by `extract_questions_from_squad_json` exactly
when some qas entry of some paragraph has question `q` and a non-empty
answers list whose first answer text is `a`; entries with empty answers
contribute nothing. -/
theorem questions_extraction_membership (squad : Squad) (q a : String) :
    (q, a) ∈ extract_questions_from_squad_json squad ↔
    ∃ d ∈ squad.data, ∃ p ∈ d.paragraphs, ∃ qas ∈ p.qas,
      qas.question = q ∧
      ∃ first rest, qas.answers = first :: rest ∧ first.text = a := by
  unfold extract_questions_from_squad_json
  rw [List.mem_dedup]
  simp only [List.mem_flatMap, List.mem_filterMap]
  constructor
  · rintro ⟨d, hd, p, hp, qas, hqas, hmatch⟩
    refine ⟨d, hd, p, hp, qas, hqas, ?_⟩
    cases hans : qas.answers with
    | nil => rw [hans] at hmatch; simp at hmatch
    | cons first rest =>
        rw [hans] at hmatch
        simp only [Option.some.injEq, Prod.mk.injEq] at hmatch
        exact ⟨hmatch.1, first, rest, rfl, hmatch.2⟩
  · rintro ⟨d, hd, p, hp, qas, hqas, hq, first, rest, hans, htext⟩
    refine ⟨d, hd, p, hp, qas, hqas, ?_⟩
    rw [hans]
    simp [hq, htext]

/-- C2 (evaluation at the failing input): on text `'a cat'` with highlight
`'cat'`, the notebook's `output_with_highlight` emits the literal `'<b>'` as
BOTH the opening and the closing marker, so the occurrence of `'cat'` is
never enclosed by a matching closing emphasis tag `'</b>'`: the output is
`'<li> a <b>cat<b></li>\n'`. -/
theorem output_with_highlight_no_closing_tag :
    output_with_highlight "a cat".toList "cat".toList =
      some "<li> a <b>cat<b></li>\n".toList := by
  rfl

/-- C3: when the (non-empty) highlight does not occur anywhere in the text,
`output_with_highlight` returns the text unmodified, surrounded only by the
list-item markup `'<li> '` and `'</li>\n'`, with no emphasis markup inserted
inside the text. -/
theorem output_with_highlight_absent (text h : List Char) (hne : h ≠ [])
    (habs : ∀ i < text.length, h.isPrefixOf (text.drop i) = false) :
    output_with_highlight text h =
      some ("<li> ".toList ++ text ++ "</li>\n".toList) := by
  unfold output_with_highlight
  rw [owhLoop, findIdx2_eq_none h hne text habs]
  simp [List.append_assoc]

theorem output_with_highlight_absent_w :
    (("xy".toList : List Char) ≠ [] ∧
      ∀ i < ("ab".toList : List Char).length,
        ("xy".toList).isPrefixOf (("ab".toList).drop i) = false) ∧
    output_with_highlight "ab".toList "xy".toList =
      some ("<li> ".toList ++ "ab".toList ++ "</li>\n".toList) :=
  ⟨⟨by decide, by decide⟩,
    output_with_highlight_absent "ab".toList "xy".toList (by decide) (by decide)⟩

/-- C10: the search-and-wrap loop of `output_with_highlight` terminates for a
non-empty highlight: every iteration that finds a match shortens the
remaining text by at least the highlight's length, so fuel exceeding the
text length always suffices; with an empty highlight the loop never
terminates (no amount of fuel produces a result). -/
theorem owh_loop_terminates (output text h : List Char) :
    (∀ i, findIdx2 text h = some i →
      (text.drop (i + h.length)).length + h.length ≤ text.length) ∧
    (h ≠ [] → ∀ fuel, text.length < fuel →
      (owhLoop fuel output text h).isSome = true) ∧
    (h = [] → ∀ fuel, owhLoop fuel output text h = none) := by
  refine ⟨?_, ?_, ?_⟩
  · intro i hfind
    have hb := findIdx2_bound text h i hfind
    simp only [List.length_drop]
    omega
  · intro hne fuel hlt
    exact owhLoop_isSome h hne fuel output text hlt
  · intro he fuel
    subst he
    exact owhLoop_empty fuel output text

theorem owh_loop_terminates_w :
    (("b".toList : List Char) ≠ [] ∧ ("abc".toList : List Char).length < 5) ∧
    (owhLoop 5 "<li> ".toList "abc".toList "b".toList).isSome = true ∧
    owhLoop 9 "<li> ".toList "abc".toList [] = none :=
  ⟨⟨by decide, by decide⟩,
    (owh_loop_terminates "<li> ".toList "abc".toList "b".toList).2.1
      (by decide) 5 (by decide),
    (owh_loop_terminates "<li> ".toList "abc".toList []).2.2 rfl 9⟩

/-- C6: on a `y × x` frame (both positive), `crop_center_square` returns the
square sub-frame of side `m = min y x` whose rows start at `y/2 - m/2` and
whose columns start at `x/2 - m/2`: the output has exactly `m` rows, every
output row has exactly `m` entries, and entry `(i, j)` of the output is
entry `(y/2 - m/2 + i, x/2 - m/2 + j)` of the input. -/
theorem crop_center_square_spec (frame : List (List α)) (y x : Nat)
    (hy : 0 < y) (hx : 0 < x) (hlen : frame.length = y)
    (hrows : ∀ row ∈ frame, row.length = x) :
    (crop_center_square frame).length = min y x ∧
    (∀ row ∈ crop_center_square frame, row.length = min y x) ∧
    (∀ i j, i < min y x → j < min y x →
      (crop_center_square frame)[i]?.bind (fun row => row[j]?) =
        frame[y / 2 - min y x / 2 + i]?.bind
          (fun row => row[x / 2 - min y x / 2 + j]?)) := by
  have hhead : (frame.headD []).length = x := by
    cases frame with
    | nil => rw [List.length_nil] at hlen; omega
    | cons r rs => simpa using hrows r (List.mem_cons_self r rs)
  have hcrop : crop_center_square frame =
      ((frame.drop (y / 2 - min y x / 2)).take (min y x)).map
        (fun row => (row.drop (x / 2 - min y x / 2)).take (min y x)) := by
    simp only [crop_center_square]
    rw [hlen, hhead]
  refine ⟨?_, ?_, ?_⟩
  · simp only [hcrop, List.length_map, List.length_take, List.length_drop, hlen]
    omega
  · intro row hrow
    rw [hcrop] at hrow
    rcases List.mem_map.mp hrow with ⟨r, hr, hrw⟩
    have hrx : r.length = x :=
      hrows r (List.mem_of_mem_drop (List.mem_of_mem_take hr))
    rw [← hrw]
    simp only [List.length_take, List.length_drop, hrx]
    omega
  · intro i j hi hj
    rw [hcrop, List.getElem?_map, List.getElem?_take_of_lt hi,
      List.getElem?_drop]
    have hb : y / 2 - min y x / 2 + i < frame.length := by rw [hlen]; omega
    rw [List.getElem?_eq_getElem hb]
    simp only [Option.map_some', Option.some_bind]
    rw [List.getElem?_take_of_lt hj, List.getElem?_drop]

theorem crop_center_square_spec_w :
    (0 < 2 ∧ 0 < 3 ∧
      ([[1, 2, 3], [4, 5, 6]] : List (List Nat)).length = 2 ∧
      ∀ row ∈ ([[1, 2, 3], [4, 5, 6]] : List (List Nat)), row.length = 3) ∧
    ((crop_center_square ([[1, 2, 3], [4, 5, 6]] : List (List Nat))).length
        = min 2 3 ∧
      (∀ row ∈ crop_center_square ([[1, 2, 3], [4, 5, 6]] : List (List Nat)),
        row.length = min 2 3) ∧
      (∀ i j, i < min 2 3 → j < min 2 3 →
        (crop_center_square
            ([[1, 2, 3], [4, 5, 6]] : List (List Nat)))[i]?.bind
              (fun row => row[j]?) =
          ([[1, 2, 3], [4, 5, 6]] :
              List (List Nat))[2 / 2 - min 2 3 / 2 + i]?.bind
            (fun row => row[3 / 2 - min 2 3 / 2 + j]?))) :=
  ⟨⟨by decide, by decide, by decide, by decide⟩,
    crop_center_square_spec [[1, 2, 3], [4, 5, 6]] 2 3 (by decide) (by decide)
      (by decide) (by decide)⟩

/-! ## Lemmas about frame processing -/

theorem pix8_crop (f : Frame8) (h8 : pix8 f) : pix8 (crop_center_square f) := by
  intro row hrow p hp
  simp only [crop_center_square] at hrow
  rcases List.mem_map.mp hrow with ⟨r, hr, hrw⟩
  have hrf : r ∈ f := List.mem_of_mem_drop (List.mem_of_mem_take hr)
  have hpr : p ∈ r := by
    rw [← hrw] at hp
    exact List.mem_of_mem_drop (List.mem_of_mem_take hp)
  exact h8 r hrf p hpr

theorem pix8_reorder_map (f : Frame8) (h8 : pix8 f) :
    pix8 (f.map fun row => row.map reorderChannels) := by
  intro row hrow p hp
  rcases List.mem_map.mp hrow with ⟨r, hr, hrw⟩
  rw [← hrw] at hp
  rcases List.mem_map.mp hp with ⟨p0, hp0, hpw⟩
  obtain ⟨b1, b2, b3⟩ := h8 r hr p0 hp0
  rw [← hpw]
  exact ⟨b3, b2, b1⟩

theorem div255_range (v : Nat) (h : v ≤ 255) :
    0 ≤ (v : ℚ) / 255 ∧ (v : ℚ) / 255 ≤ 1 := by
  constructor
  · positivity
  · rw [div_le_one (by norm_num)]
    exact_mod_cast h

/-- C7: when the decoded frames are 8-bit (all channel values in `0 .. 255`)
and the external resize keeps frames 8-bit, every value in the array returned
by `load_video` is some channel value `v ≤ 255` divided by 255, and hence
lies in the closed interval `[0, 1]`. -/
theorem load_video_normalized (resize : Frame8 → Frame8) (max_frames : Nat)
    (decoded : List Frame8)
    (h8 : ∀ f ∈ decoded, pix8 f)
    (hres : ∀ f, pix8 f → pix8 (resize f)) :
    ∀ fr ∈ load_video resize max_frames decoded, ∀ row ∈ fr, ∀ q ∈ row,
      (∃ p : Pixel8, (p.1 ≤ 255 ∧ p.2.1 ≤ 255 ∧ p.2.2 ≤ 255) ∧
        q = normPixel p) ∧
      (0 ≤ q.1 ∧ q.1 ≤ 1) ∧ (0 ≤ q.2.1 ∧ q.2.1 ≤ 1) ∧
      (0 ≤ q.2.2 ∧ q.2.2 ≤ 1) := by
  intro fr hfr row hrow q hq
  simp only [load_video] at hfr
  rcases List.mem_map.mp hfr with ⟨fr8, hfr8, hfrw⟩
  rcases List.mem_map.mp hfr8 with ⟨f0, hf0, hfw⟩
  have hf0d : f0 ∈ decoded := by
    by_cases hmf : max_frames = 0
    · simpa [hmf] using hf0
    · rw [if_neg hmf] at hf0
      exact List.mem_of_mem_take hf0
  have h4 : pix8 (processFrame resize f0) :=
    pix8_reorder_map _ (hres _ (pix8_crop _ (h8 f0 hf0d)))
  rw [← hfw] at hfrw
  rw [← hfrw] at hrow
  rcases List.mem_map.mp hrow with ⟨row8, hrow8, hroww⟩
  rw [← hroww] at hq
  rcases List.mem_map.mp hq with ⟨p, hp, hpw⟩
  have hb := h4 row8 hrow8 p hp
  refine ⟨⟨p, hb, hpw.symm⟩, ?_, ?_, ?_⟩
  · rw [← hpw]
    exact div255_range p.1 hb.1
  · rw [← hpw]
    exact div255_range p.2.1 hb.2.1
  · rw [← hpw]
    exact div255_range p.2.2 hb.2.2

theorem load_video_normalized_w :
    ((∀ f ∈ ([[[(0, 17, 255)]]] : List Frame8), pix8 f) ∧
      (∀ f, pix8 f → pix8 (id f))) ∧
    (∀ fr ∈ load_video id 0 ([[[(0, 17, 255)]]] : List Frame8),
      ∀ row ∈ fr, ∀ q ∈ row,
        (∃ p : Pixel8, (p.1 ≤ 255 ∧ p.2.1 ≤ 255 ∧ p.2.2 ≤ 255) ∧
          q = normPixel p) ∧
        (0 ≤ q.1 ∧ q.1 ≤ 1) ∧ (0 ≤ q.2.1 ∧ q.2.1 ≤ 1) ∧
        (0 ≤ q.2.2 ∧ q.2.2 ≤ 1)) :=
  ⟨⟨by simp only [pix8]; decide, fun _ h => h⟩,
    load_video_normalized id 0 [[[(0, 17, 255)]]]
      (by simp only [pix8]; decide) (fun _ h => h)⟩

/-- C8: `predict` converts the logits to probabilities via softmax and
reports exactly five lines — `labels[i]` with `probabilities[i] * 100` for
the selected indices — where the selected probabilities are pairwise
non-increasing top to bottom and are the five largest: every unselected
index has probability at most that of every selected one. -/
theorem predict_top5_descending (labels : List String) (logits : List ℝ)
    (h5 : 5 ≤ logits.length) :
    (predict labels logits).length = 5 ∧
    predict labels logits = (top5Indices (softmax logits)).map (fun i =>
      (labels.getD i "", (softmax logits).getD i 0 * 100)) ∧
    (top5Indices (softmax logits)).Pairwise (fun i j =>
      (softmax logits).getD j 0 ≤ (softmax logits).getD i 0) ∧
    (∀ j < logits.length, j ∉ top5Indices (softmax logits) →
      ∀ i ∈ top5Indices (softmax logits),
        (softmax logits).getD j 0 ≤ (softmax logits).getD i 0) := by
  set v := softmax logits with hvdef
  have hv : v.length = logits.length := by
    rw [hvdef]
    simp [softmax]
  have hperm : List.Perm (argsortAsc v) (List.range v.length) :=
    List.perm_insertionSort _ _
  have hlenasc : (argsortAsc v).length = v.length := by
    rw [hperm.length_eq, List.length_range]
  haveI ht : IsTotal Nat (fun i j => v.getD i 0 ≤ v.getD j 0) :=
    ⟨fun _ _ => le_total _ _⟩
  haveI htr : IsTrans Nat (fun i j => v.getD i 0 ≤ v.getD j 0) :=
    ⟨fun _ _ _ hab hbc => le_trans hab hbc⟩
  have hsorted : List.Pairwise (fun i j => v.getD i 0 ≤ v.getD j 0)
      (argsortAsc v) :=
    List.sorted_insertionSort _ _
  have hdesc : List.Pairwise (fun i j => v.getD j 0 ≤ v.getD i 0)
      (argsortAsc v).reverse := List.pairwise_reverse.mpr hsorted
  have hseltake : top5Indices v = ((argsortAsc v).reverse).take 5 := rfl
  have hsel : List.Pairwise (fun i j => v.getD j 0 ≤ v.getD i 0)
      (top5Indices v) := by
    rw [hseltake]
    exact List.Pairwise.sublist (List.take_sublist 5 _) hdesc
  have hsellen : (top5Indices v).length = 5 := by
    rw [hseltake, List.length_take, List.length_reverse, hlenasc, hv]
    omega
  refine ⟨?_, rfl, hsel, ?_⟩
  · simp only [predict, List.length_map]
    exact hsellen
  · intro j hj hnot i hi
    have hjrange : j ∈ List.range v.length := by
      rw [List.mem_range, hv]
      exact hj
    have hjasc : j ∈ (argsortAsc v).reverse := by
      rw [List.mem_reverse]
      exact hperm.mem_iff.mpr hjrange
    have hsplit : (argsortAsc v).reverse =
        top5Indices v ++ ((argsortAsc v).reverse).drop 5 :=
      (List.take_append_drop 5 _).symm
    have hjdrop : j ∈ ((argsortAsc v).reverse).drop 5 := by
      rw [hsplit] at hjasc
      rcases List.mem_append.mp hjasc with hjin | hjin
      · exact absurd hjin hnot
      · exact hjin
    rw [hsplit] at hdesc
    exact (List.pairwise_append.mp hdesc).2.2 i hi j hjdrop

theorem predict_top5_descending_w :
    5 ≤ ([0, 0, 0, 0, 0] : List ℝ).length ∧
    ((predict ["a", "b", "c", "d", "e"] ([0, 0, 0, 0, 0] : List ℝ)).length = 5 ∧
      predict ["a", "b", "c", "d", "e"] ([0, 0, 0, 0, 0] : List ℝ) =
        (top5Indices (softmax ([0, 0, 0, 0, 0] : List ℝ))).map (fun i =>
          (["a", "b", "c", "d", "e"].getD i "",
            (softmax ([0, 0, 0, 0, 0] : List ℝ)).getD i 0 * 100)) ∧
      (top5Indices (softmax ([0, 0, 0, 0, 0] : List ℝ))).Pairwise (fun i j =>
        (softmax ([0, 0, 0, 0, 0] : List ℝ)).getD j 0 ≤
          (softmax ([0, 0, 0, 0, 0] : List ℝ)).getD i 0) ∧
      (∀ j < ([0, 0, 0, 0, 0] : List ℝ).length,
        j ∉ top5Indices (softmax ([0, 0, 0, 0, 0] : List ℝ)) →
        ∀ i ∈ top5Indices (softmax ([0, 0, 0, 0, 0] : List ℝ)),
          (softmax ([0, 0, 0, 0, 0] : List ℝ)).getD j 0 ≤
            (softmax ([0, 0, 0, 0, 0] : List ℝ)).getD i 0)) :=
  ⟨by decide,
    predict_top5_descending ["a", "b", "c", "d", "e"]
      ([0, 0, 0, 0, 0] : List ℝ) (by decide)⟩

/-- C9: `fetch_ucf_video` downloads exactly when no file with the video's
name exists in the cache directory; on a cache hit it performs no download
and leaves the cache (in particular the cached file's contents) unchanged;
and in both cases it returns the same cache path
`os.path.join(_CACHE_DIR, video)`, determined by the name alone. -/
theorem fetch_ucf_video_cache (download : String → String) (cacheDir : String)
    (fs : List (String × String)) (video : String) :
    ((fetch_ucf_video download cacheDir fs video).downloaded = true ↔
      fs.lookup (cacheDir ++ "/" ++ video) = none) ∧
    (∀ d, fs.lookup (cacheDir ++ "/" ++ video) = some d →
      (fetch_ucf_video download cacheDir fs video).fs = fs) ∧
    (fetch_ucf_video download cacheDir fs video).path =
      cacheDir ++ "/" ++ video := by
  unfold fetch_ucf_video
  cases hlu : fs.lookup (cacheDir ++ "/" ++ video) with
  | none => simp [hlu]
  | some d => simp [hlu]

theorem fetch_ucf_video_cache_w :
    (([("c/v", "data")] : List (String × String)).lookup
        ("c" ++ "/" ++ "v") = some "data") ∧
    (fetch_ucf_video (fun _ => "") "c" [("c/v", "data")] "v").fs
      = [("c/v", "data")] ∧
    (fetch_ucf_video (fun _ => "") "c" [] "v").downloaded = true ∧
    (fetch_ucf_video (fun _ => "") "c" [("c/v", "data")] "v").path = "c/v" :=
  ⟨by decide,
    (fetch_ucf_video_cache (fun _ => "") "c" [("c/v", "data")] "v").2.1
      "data" (by decide),
    (fetch_ucf_video_cache (fun _ => "") "c" [] "v").1.mpr rfl,
    ((fetch_ucf_video_cache (fun _ => "") "c" [("c/v", "data")] "v").2.2).trans
      (by decide)⟩

end Spec2Proof
